import Mathlib

/-!
Verification of the poker game-logic kernel of `texas_holdem.py`
(hand evaluator, equity estimator, bot decision policy, betting state
machine).  Python code is shallowly embedded: cards `(rank, suit)` become
pairs of naturals (the rank string is replaced by its `RANK_VAL` value
2..14, the suit symbol by an index 0..3), Python ints become `Nat`/`Int`,
Python floats become exact rationals, and the mutations of the `App`
object become explicit state-passing over a `GState` record.  Calls to
`random` are modelled by passing the drawn values (shuffled decks, rolls)
as explicit arguments.
-/

/-- A card `(r, s)` of the source, with the rank string already mapped
through `RANK_VAL` (so `'2'` ↦ 2, …, `'A'` ↦ 14) and the suit symbol
through its index in `SUITS` (♠ ↦ 0, ♥ ↦ 1, ♦ ↦ 2, ♣ ↦ 3). -/
abbrev Card := Nat × Nat

/-- Suit indices, standing for `SUITS = ['♠','♥','♦','♣']`. -/
def SUITS : List Nat := [0, 1, 2, 3]

/-- Rank values `RANK_VAL[r]` for `r` in `RANKS`, in the order of `RANKS`. -/
def RANKS : List Nat := [2, 3, 4, 5, 6, 7, 8, 9, 10, 11, 12, 13, 14]

/-- `make_deck()`: all 52 cards, suits outer, ranks inner. -/
def make_deck : List Card := SUITS.flatMap fun s => RANKS.map fun r => (r, s)

/-- `sorted(l, reverse=True)` on a list of ints.  The result is the unique
descending reordering, so any stable sort implements it. -/
def sortDesc (l : List Int) : List Int := l.insertionSort fun a b => b ≤ a

/-- A hand score as returned by `score_five`: the pair
`(category, tie-break values)`, compared the way Python compares tuples. -/
abbrev Score := Nat × List Int

/-- Python `<` on lists of ints (lexicographic, a strict prefix is smaller). -/
def listLt : List Int → List Int → Bool
  | _, [] => false
  | [], _ :: _ => true
  | a :: as, b :: bs => if a < b then true else if b < a then false else listLt as bs

/-- Python `<` on `Score` tuples: category first, then the tie-break lists. -/
def scoreLt (x y : Score) : Bool :=
  if x.1 < y.1 then true else if y.1 < x.1 then false else listLt x.2 y.2

/-- Python `<=` on `Score` tuples (`x <= y` iff not `y < x`; the order is
total, see `scoreLt_connex`). -/
def scoreLe (x y : Score) : Bool := !scoreLt y x

/-- Classification core of `score_five`, a function of the descending
rank values and the flush flag (the only data the source body uses).
`vals0` is `sorted(vals, reverse=True)`, `flush` is `len(set(suits))==1`. -/
def score_five_core (vals0 : List Int) (flush : Bool) : Score :=
  -- st = (vals == list(range(vals[0], vals[0]-5, -1)) or vals == [14,5,4,3,2])
  let v0 := vals0.headD 0
  let st : Bool := vals0 == [v0, v0 - 1, v0 - 2, v0 - 3, v0 - 4] || vals0 == [14, 5, 4, 3, 2]
  -- if st and vals == [14,5,4,3,2]: vals = [5,4,3,2,1]
  let vals := if st && vals0 == [14, 5, 4, 3, 2] then [5, 4, 3, 2, 1] else vals0
  -- counts = Counter(vals)
  let cnt : Int → Nat := fun v => vals.count v
  let keys := vals.dedup
  -- freq = sorted(counts.values(), reverse=True): values sorted descending
  let freq := (keys.map cnt).insertionSort fun a b => b ≤ a
  -- grp = sorted(counts.keys(), key=lambda v: (counts[v], v), reverse=True):
  -- keys sorted descending by the lexicographic key (count, value); the keys
  -- are distinct so the key order is strict and the result unique
  let grp := keys.insertionSort fun a b => cnt b < cnt a ∨ (cnt b = cnt a ∧ b ≤ a)
  if st && flush then (8, vals)
  else if freq == [4, 1] then (7, grp)
  else if freq == [3, 2] then (6, grp)
  else if flush then (5, vals)
  else if st then (4, vals)
  else if freq.headD 0 == 3 then (3, grp)
  else if freq.take 2 == [2, 2] then (2, grp)
  else if freq.headD 0 == 2 then (1, grp)
  else (0, vals)

/-- `score_five(cards)`: `vals = sorted([RANK_VAL[c[0]] for c in cards],
reverse=True)`, `flush = len(set([c[1] for c in cards])) == 1`, then the
classification body (`score_five_core`). -/
def score_five (cards : List Card) : Score :=
  score_five_core (sortDesc (cards.map fun c => (c.1 : Int)))
    ((cards.map fun c => c.2).dedup.length == 1)

/-- One step of the `hand_rank` loop: `if best is None or s > best: best = s`. -/
def betterOf (best : Option Score) (s : Score) : Option Score :=
  match best with
  | none => some s
  | some b => if scoreLt b s then some s else some b

/-- `hand_rank(hand)`: fold the strict-improvement step over every 5-card
combination.  `List.sublistsLen 5 hand` enumerates exactly the 5-element
subsequences that `itertools.combinations(hand, 5)` yields (the
enumeration order differs, which cannot change the fold's value: the loop
keeps a running maximum of the scores). -/
def hand_rank (hand : List Card) : Option Score :=
  (hand.sublistsLen 5).foldl (fun best five => betterOf best (score_five five)) none

-- ── Order theory for the Python tuple comparison ──

theorem listLt_irrefl : ∀ l : List Int, listLt l l = false := by
  intro l
  induction l with
  | nil => rfl
  | cons a as ih => simp [listLt, ih]

theorem listLt_trans : ∀ {a b c : List Int},
    listLt a b = true → listLt b c = true → listLt a c = true := by
  intro a
  induction a with
  | nil =>
    intro b c hab hbc
    cases b with
    | nil => simp [listLt] at hab
    | cons y ys =>
      cases c with
      | nil => simp [listLt] at hbc
      | cons z zs => simp [listLt]
  | cons x xs ih =>
    intro b c hab hbc
    cases b with
    | nil => simp [listLt] at hab
    | cons y ys =>
      cases c with
      | nil => simp [listLt] at hbc
      | cons z zs =>
        simp only [listLt] at hab hbc ⊢
        rcases lt_trichotomy x y with hxy | hxy | hxy
        · rcases lt_trichotomy y z with hyz | hyz | hyz
          · simp [lt_trans hxy hyz]
          · subst hyz; simp [hxy]
          · simp [not_lt.mpr (le_of_lt hyz), hyz] at hbc
        · subst hxy
          simp only [lt_irrefl, if_false] at hab
          rcases lt_trichotomy x z with hxz | hxz | hxz
          · simp [hxz]
          · subst hxz
            simp only [lt_irrefl, if_false] at hbc ⊢
            exact ih hab hbc
          · simp [not_lt.mpr (le_of_lt hxz), hxz] at hbc
        · simp [not_lt.mpr (le_of_lt hxy), hxy] at hab

theorem listLt_connex : ∀ {a b : List Int},
    listLt a b = false → listLt b a = false → a = b := by
  intro a
  induction a with
  | nil =>
    intro b hab _
    cases b with
    | nil => rfl
    | cons y ys => simp [listLt] at hab
  | cons x xs ih =>
    intro b hab hba
    cases b with
    | nil => simp [listLt] at hba
    | cons y ys =>
      simp only [listLt] at hab hba
      rcases lt_trichotomy x y with hxy | hxy | hxy
      · simp [hxy] at hab
      · subst hxy
        simp only [lt_irrefl, if_false] at hab hba
        rw [ih hab hba]
      · simp [hxy] at hba

theorem scoreLt_irrefl (x : Score) : scoreLt x x = false := by
  simp [scoreLt, listLt_irrefl]

theorem scoreLt_trans {x y z : Score} (hxy : scoreLt x y = true)
    (hyz : scoreLt y z = true) : scoreLt x z = true := by
  rcases x with ⟨cx, lx⟩; rcases y with ⟨cy, ly⟩; rcases z with ⟨cz, lz⟩
  simp only [scoreLt] at hxy hyz ⊢
  rcases lt_trichotomy cx cy with h1 | h1 | h1
  · rcases lt_trichotomy cy cz with h2 | h2 | h2
    · simp [lt_trans h1 h2]
    · subst h2; simp [h1]
    · simp [Nat.not_lt.mpr (Nat.le_of_lt h2), h2] at hyz
  · subst h1
    simp only [lt_irrefl, if_false] at hxy
    rcases lt_trichotomy cx cz with h2 | h2 | h2
    · simp [h2]
    · subst h2
      simp only [lt_irrefl, if_false] at hyz ⊢
      exact listLt_trans hxy hyz
    · simp [Nat.not_lt.mpr (Nat.le_of_lt h2), h2] at hyz
  · simp [Nat.not_lt.mpr (Nat.le_of_lt h1), h1] at hxy

theorem scoreLt_connex {x y : Score} (hxy : scoreLt x y = false)
    (hyx : scoreLt y x = false) : x = y := by
  rcases x with ⟨cx, lx⟩; rcases y with ⟨cy, ly⟩
  simp only [scoreLt] at hxy hyx
  rcases lt_trichotomy cx cy with h1 | h1 | h1
  · simp [h1] at hxy
  · subst h1
    simp only [lt_irrefl, if_false] at hxy hyx
    rw [listLt_connex hxy hyx]
  · simp [h1] at hyx

theorem scoreLe_refl (x : Score) : scoreLe x x = true := by
  simp [scoreLe, scoreLt_irrefl]

theorem scoreLe_of_lt {x y : Score} (h : scoreLt x y = true) : scoreLe x y = true := by
  simp only [scoreLe, Bool.not_eq_true']
  by_contra hc
  rw [Bool.not_eq_false] at hc
  have := scoreLt_trans h hc
  rw [scoreLt_irrefl] at this
  exact Bool.false_ne_true this

theorem scoreLe_trans {x y z : Score} (hxy : scoreLe x y = true)
    (hyz : scoreLe y z = true) : scoreLe x z = true := by
  simp only [scoreLe, Bool.not_eq_true'] at hxy hyz ⊢
  by_contra hc
  rw [Bool.not_eq_false] at hc
  -- hc : z < x; contradiction with ¬ y < x and ¬ z < y
  rcases hyz' : scoreLt y z with _ | _
  · have := scoreLt_connex hyz hyz'
    subst this
    rw [hc] at hxy
    simp at hxy
  · have := scoreLt_trans hyz' hc
    rw [this] at hxy
    simp at hxy

theorem scoreLe_total (x y : Score) : scoreLe x y = true ∨ scoreLe y x = true := by
  simp only [scoreLe, Bool.not_eq_true']
  rcases h : scoreLt y x with _ | _
  · exact Or.inl rfl
  · right
    rcases h2 : scoreLt x y with _ | _
    · rfl
    · have := scoreLt_trans h h2
      rw [scoreLt_irrefl] at this
      exact absurd this Bool.false_ne_true

-- ── The running maximum computed by the hand_rank fold ──

theorem betterOf_foldl (l : List Score) (b : Score) :
    ∃ m, l.foldl betterOf (some b) = some m ∧ (m = b ∨ m ∈ l) ∧
      scoreLe b m = true ∧ ∀ s ∈ l, scoreLe s m = true := by
  induction l generalizing b with
  | nil => exact ⟨b, rfl, Or.inl rfl, scoreLe_refl b, by simp⟩
  | cons s t ih =>
    rcases h : scoreLt b s with _ | _
    · -- keep b
      obtain ⟨m, hm, hmem, hble, hub⟩ := ih b
      refine ⟨m, ?_, ?_, hble, ?_⟩
      · simpa [betterOf, h] using hm
      · rcases hmem with h' | h'
        · exact Or.inl h'
        · exact Or.inr (List.mem_cons_of_mem _ h')
      · intro u hu
        rcases List.mem_cons.mp hu with h' | h'
        · subst h'
          exact scoreLe_trans (by simpa [scoreLe] using h) hble
        · exact hub u h'
    · -- replace by s
      obtain ⟨m, hm, hmem, hsle, hub⟩ := ih s
      refine ⟨m, ?_, ?_, ?_, ?_⟩
      · simpa [betterOf, h] using hm
      · rcases hmem with h' | h'
        · exact Or.inr (List.mem_cons.mpr (Or.inl h'))
        · exact Or.inr (List.mem_cons_of_mem _ h')
      · exact scoreLe_trans (scoreLe_of_lt h) hsle
      · intro u hu
        rcases List.mem_cons.mp hu with h' | h'
        · subst h'; exact hsle
        · exact hub u h'

theorem foldl_betterOf_max (l : List Score) (hne : l ≠ []) :
    ∃ m, l.foldl betterOf none = some m ∧ m ∈ l ∧
      ∀ s ∈ l, scoreLe s m = true := by
  rcases l with _ | ⟨s, t⟩
  · exact absurd rfl hne
  · obtain ⟨m, hm, hmem, hsle, hub⟩ := betterOf_foldl t s
    refine ⟨m, ?_, ?_, ?_⟩
    · simpa [betterOf] using hm
    · rcases hmem with h' | h'
      · exact h' ▸ List.mem_cons_self s t
      · exact List.mem_cons_of_mem _ h'
    · intro u hu
      rcases List.mem_cons.mp hu with h' | h'
      · subst h'; exact hsle
      · exact hub u h'

/-- C3: for every collection of 5 to 7 distinct cards, `hand_rank` returns
the maximum of `score_five` over all 5-card subsets, the maximum being
taken under the total order on `Score` that compares the category first
and then the tie-break sequence lexicographically (`scoreLe`). -/
theorem hand_rank_is_subset_max (hand : List Card) (h5 : 5 ≤ hand.length)
    (h7 : hand.length ≤ 7) (hnd : hand.Nodup) :
    ∃ m, hand_rank hand = some m ∧
      m ∈ (hand.sublistsLen 5).map score_five ∧
      ∀ s ∈ (hand.sublistsLen 5).map score_five, scoreLe s m = true := by
  have hlen : (hand.sublistsLen 5).length = hand.length.choose 5 := by
    simpa using List.length_sublistsLen 5 hand
  have hpos : 0 < (hand.sublistsLen 5).length := by
    rw [hlen]; exact Nat.choose_pos h5
  have hne : (hand.sublistsLen 5).map score_five ≠ [] := by
    intro h
    rw [List.map_eq_nil_iff] at h
    rw [h] at hpos
    exact Nat.lt_irrefl 0 hpos
  obtain ⟨m, hm, hmem, hub⟩ := foldl_betterOf_max _ hne
  refine ⟨m, ?_, hmem, hub⟩
  rw [hand_rank, ← List.foldl_map]
  exact hm

/-- C3 witness: a concrete 7-card collection. -/
theorem hand_rank_is_subset_max_witness :
    (5 ≤ ([(14, 0), (13, 0), (12, 0), (11, 0), (10, 0), (9, 1), (2, 2)] : List Card).length ∧
      ([(14, 0), (13, 0), (12, 0), (11, 0), (10, 0), (9, 1), (2, 2)] : List Card).length ≤ 7 ∧
      ([(14, 0), (13, 0), (12, 0), (11, 0), (10, 0), (9, 1), (2, 2)] : List Card).Nodup) ∧
    ∃ m, hand_rank [(14, 0), (13, 0), (12, 0), (11, 0), (10, 0), (9, 1), (2, 2)] = some m ∧
      m ∈ (([(14, 0), (13, 0), (12, 0), (11, 0), (10, 0), (9, 1), (2, 2)] : List Card).sublistsLen 5).map score_five ∧
      ∀ s ∈ (([(14, 0), (13, 0), (12, 0), (11, 0), (10, 0), (9, 1), (2, 2)] : List Card).sublistsLen 5).map score_five,
        scoreLe s m = true :=
  ⟨⟨by decide, by decide, by decide⟩,
    hand_rank_is_subset_max _ (by decide) (by decide) (by decide)⟩

/-- C4: a 5-card wheel hand (rank values A-5-4-3-2) is detected as a
straight and re-scored with tie-break `[5,4,3,2,1]` (Ace valued 1); its
category is Straight Flush (8) when the suits match and Straight (4)
otherwise, and in either case it compares strictly below the
corresponding 6-high straight (flush) under the `Score` order. -/
theorem score_five_wheel (w t : List Card)
    (hw : sortDesc (w.map fun c => (c.1 : Int)) = [14, 5, 4, 3, 2])
    (ht : sortDesc (t.map fun c => (c.1 : Int)) = [6, 5, 4, 3, 2])
    (hf : ((w.map fun c => c.2).dedup.length == 1)
        = ((t.map fun c => c.2).dedup.length == 1)) :
    (score_five w).2 = [5, 4, 3, 2, 1] ∧
    (score_five w).1 = (if (w.map fun c => c.2).dedup.length == 1 then 8 else 4) ∧
    scoreLt (score_five w) (score_five t) = true := by
  rw [score_five, score_five, hw, ht, ← hf]
  rcases hfl : ((w.map fun c => c.2).dedup.length == 1) with _ | _ <;>
    exact ⟨by decide, by decide, by decide⟩

/-- C4 witness: the concrete wheel `5♠4♥3♦2♣A♠` against `6♠5♥4♦3♣2♠`
(both non-flush). -/
theorem score_five_wheel_witness :
    (sortDesc (([(5, 0), (4, 1), (3, 2), (2, 3), (14, 0)] : List Card).map fun c => (c.1 : Int))
        = [14, 5, 4, 3, 2] ∧
      sortDesc (([(6, 0), (5, 1), (4, 2), (3, 3), (2, 0)] : List Card).map fun c => (c.1 : Int))
        = [6, 5, 4, 3, 2] ∧
      ((([(5, 0), (4, 1), (3, 2), (2, 3), (14, 0)] : List Card).map fun c => c.2).dedup.length == 1)
        = ((([(6, 0), (5, 1), (4, 2), (3, 3), (2, 0)] : List Card).map fun c => c.2).dedup.length == 1)) ∧
    ((score_five [(5, 0), (4, 1), (3, 2), (2, 3), (14, 0)]).2 = [5, 4, 3, 2, 1] ∧
      (score_five [(5, 0), (4, 1), (3, 2), (2, 3), (14, 0)]).1
        = (if (([(5, 0), (4, 1), (3, 2), (2, 3), (14, 0)] : List Card).map fun c => c.2).dedup.length == 1 then 8 else 4) ∧
      scoreLt (score_five [(5, 0), (4, 1), (3, 2), (2, 3), (14, 0)])
        (score_five [(6, 0), (5, 1), (4, 2), (3, 3), (2, 0)]) = true) :=
  ⟨⟨by decide, by decide, by decide⟩,
    score_five_wheel _ _ (by decide) (by decide) (by decide)⟩

-- ── Betting state machine ──

/-- The fields of a `self.players` entry that the betting logic reads or
writes.  `human` and `persona` never influence the chip or queue
mutations and are omitted; `name` is kept because the source compares
player dicts by value (`q != p`) and the names make the dicts distinct. -/
structure Player where
  name : String
  stack : Nat
  hand : List Card
  folded : Bool
  bet : Nat
deriving DecidableEq

/-- The `App` fields driving a hand: `self.players`, `self.comm`,
`self.pot`, `self.hbet` (current bet to match), `self.aq` (action queue of
player indices) and `self.deck`. -/
structure GState where
  players : List Player
  comm : List Card
  pot : Nat
  hbet : Nat
  aq : List Nat
  deck : List Card
deriving DecidableEq

/-- The action strings `'fold' | 'check' | 'call' | 'raise'`. -/
inductive Act where
  | fold
  | check
  | call
  | raise
deriving DecidableEq

/-- Condition of the reopening loop body in `App.apply` for index `i`,
except for its last conjunct `i not in self.aq`:
`not q['folded'] and q != p and q['stack'] > 0 and q['bet'] < self.hbet`,
where `ps` is the player list after the raiser was charged, `p'` the
raiser's updated dict and `newBet` the already-updated `self.hbet`. -/
def reopenOk (ps : List Player) (p' : Player) (newBet : Nat) (i : Nat) : Bool :=
  match ps[i]? with
  | some q => !q.folded && q != p' && decide (q.stack > 0) && decide (q.bet < newBet)
  | none => false

namespace App

/-- `App.apply(idx, p, act, amt, call, mr)` restricted to the state it
mutates (players, pot, hbet, aq).  `p` is `self.players[idx]` and `call`
is the value `max(0, self.hbet - p['bet'])` that `next_action` computes
just before calling `apply` (truncated `Nat` subtraction is exactly that
`max`).  The queue indices always come from the queue itself, so `idx` is
in range; an out-of-range `idx` leaves the state unchanged here. -/
def apply (st : GState) (idx : Nat) (act : Act) (amt : Nat) : GState :=
  match st.players[idx]? with
  | none => st
  | some p =>
    let call := st.hbet - p.bet
    match act with
    | .fold => { st with players := st.players.set idx { p with folded := true } }
    | .check => st
    | .call =>
      -- pd = min(call, p['stack']); p['stack'] -= pd; p['bet'] += pd; pot += pd
      let pd := min call p.stack
      { st with
          players := st.players.set idx { p with stack := p.stack - pd, bet := p.bet + pd },
          pot := st.pot + pd }
    | .raise =>
      -- pd = min(call + amt, p['stack']); p['stack'] -= pd; p['bet'] += pd; pot += pd
      let pd := min (call + amt) p.stack
      let p' := { p with stack := p.stack - pd, bet := p.bet + pd }
      let ps := st.players.set idx p'
      if p'.bet > st.hbet then
        -- self.hbet = p['bet'], then walk the players appending each index
        -- that satisfies the reopening condition and is not yet queued (the
        -- membership test reads the queue as it grows, as in the source)
        let aq' := (List.range ps.length).foldl
          (fun acc i => if reopenOk ps p' p'.bet i && decide (i ∉ acc) then acc ++ [i] else acc)
          st.aq
        { st with players := ps, pot := st.pot + pd, hbet := p'.bet, aq := aq' }
      else
        { st with players := ps, pot := st.pot + pd }

end App

/-- One blind post of `App.preflop`:
`pd = min(a, p['stack']); p['stack'] -= pd; p['bet'] += pd; self.pot += pd`. -/
def postBlind (st : GState) (idx amount : Nat) : GState :=
  match st.players[idx]? with
  | none => st
  | some p =>
    let pd := min amount p.stack
    { st with
        players := st.players.set idx { p with stack := p.stack - pd, bet := p.bet + pd },
        pot := st.pot + pd }

/-- A betting event of a hand: a blind post (`App.preflop`) or a player
action handed to `App.apply`. -/
inductive Event where
  | blind (idx amount : Nat)
  | action (idx : Nat) (act : Act) (amt : Nat)

/-- Apply one event to the state. -/
def runEvent (st : GState) : Event → GState
  | .blind idx amount => postBlind st idx amount
  | .action idx act amt => App.apply st idx act amt

/-- Apply a sequence of events to the state. -/
def runEvents (st : GState) (evs : List Event) : GState := evs.foldl runEvent st

/-- `Σ player['stack'] + self.pot`. -/
def totalChips (st : GState) : Nat := (st.players.map Player.stack).sum + st.pot

theorem sum_map_set (f : Player → Nat) (ps : List Player) (i : Nat) (p p' : Player)
    (hp : ps[i]? = some p) :
    ((ps.set i p').map f).sum + f p = (ps.map f).sum + f p' := by
  induction ps generalizing i with
  | nil => simp at hp
  | cons q t ih =>
    cases i with
    | zero =>
      simp only [List.getElem?_cons_zero, Option.some.injEq] at hp
      subst hp
      simp only [List.set, List.map_cons, List.sum_cons]
      omega
    | succ n =>
      simp only [List.getElem?_cons_succ] at hp
      have := ih n hp
      simp only [List.set, List.map_cons, List.sum_cons]
      omega

theorem totalChips_postBlind (st : GState) (idx amount : Nat) :
    totalChips (postBlind st idx amount) = totalChips st := by
  rw [postBlind]
  rcases hp : st.players[idx]? with _ | p
  · rfl
  · have hs := sum_map_set Player.stack st.players idx p
      { p with stack := p.stack - min amount p.stack, bet := p.bet + min amount p.stack } hp
    have hmin : min amount p.stack ≤ p.stack := Nat.min_le_right _ _
    simp only [totalChips] at *
    omega

theorem totalChips_apply (st : GState) (idx : Nat) (act : Act) (amt : Nat) :
    totalChips (App.apply st idx act amt) = totalChips st := by
  rw [App.apply]
  rcases hp : st.players[idx]? with _ | p
  · rfl
  · cases act with
    | fold =>
      have hs := sum_map_set Player.stack st.players idx p { p with folded := true } hp
      simp only [totalChips] at *
      omega
    | check => rfl
    | call =>
      have hs := sum_map_set Player.stack st.players idx p
        { p with
            stack := p.stack - min (st.hbet - p.bet) p.stack,
            bet := p.bet + min (st.hbet - p.bet) p.stack } hp
      have hmin : min (st.hbet - p.bet) p.stack ≤ p.stack := Nat.min_le_right _ _
      simp only [totalChips] at *
      omega
    | raise =>
      have hs := sum_map_set Player.stack st.players idx p
        { p with
            stack := p.stack - min (st.hbet - p.bet + amt) p.stack,
            bet := p.bet + min (st.hbet - p.bet + amt) p.stack } hp
      have hmin : min (st.hbet - p.bet + amt) p.stack ≤ p.stack := Nat.min_le_right _ _
      simp only [totalChips] at *
      split
      · simp only [totalChips]
        omega
      · simp only [totalChips]
        omega

/-- C1: the betting invariant.  Over any sequence of betting events of a
hand (blind posts, folds, checks, calls, raises), the sum of all players'
stacks plus the pot is unchanged — so after any such sequence it still
equals the total chips in play at hand start. -/
theorem chips_conserved (st : GState) (evs : List Event) :
    totalChips (runEvents st evs) = totalChips st := by
  induction evs generalizing st with
  | nil => rfl
  | cons e t ih =>
    rw [runEvents, List.foldl_cons]
    have h1 : totalChips (runEvent st e) = totalChips st := by
      cases e with
      | blind idx amount => exact totalChips_postBlind st idx amount
      | action idx act amt => exact totalChips_apply st idx act amt
    rw [← h1]
    exact ih (runEvent st e)

-- ── The reopening loop appends exactly the filtered indices ──

theorem reopen_foldl (P : Nat → Bool) :
    ∀ (l acc : List Nat), l.Nodup →
      l.foldl (fun acc i => if P i && decide (i ∉ acc) then acc ++ [i] else acc) acc
        = acc ++ l.filter fun i => P i && decide (i ∉ acc) := by
  intro l
  induction l with
  | nil => intro acc _; simp
  | cons a t ih =>
    intro acc hnd
    rw [List.nodup_cons] at hnd
    rcases hnd with ⟨ha, hnd⟩
    rw [List.foldl_cons, List.filter_cons]
    rcases h : P a && decide (a ∉ acc) with _ | _
    · simp only [h, if_false, Bool.false_eq_true, ite_false]
      exact ih acc hnd
    · simp only [h, if_true, ite_true]
      rw [ih (acc ++ [a]) hnd]
      have hcongr : ∀ i ∈ t, (P i && decide (i ∉ acc ++ [a]))
          = (P i && decide (i ∉ acc)) := by
        intro i hi
        have : i ≠ a := fun he => ha (he ▸ hi)
        simp [List.mem_append, this]
      rw [List.filter_congr hcongr, List.append_assoc]
      rfl

/-- Characterization of the queue after a reopening raise: the raise
appends to the queue exactly the indices of the other non-folded,
non-zero-stack players whose bet is below the new bet to match and that
are not already queued, and sets `hbet` to the raiser's new bet. -/
theorem apply_raise_reopen (st : GState) (idx : Nat) (amt : Nat) (p : Player)
    (hp : st.players[idx]? = some p)
    (hnames : (st.players.map Player.name).Nodup)
    (hraise : p.bet + min (st.hbet - p.bet + amt) p.stack > st.hbet) :
    (App.apply st idx .raise amt).hbet = p.bet + min (st.hbet - p.bet + amt) p.stack ∧
    (App.apply st idx .raise amt).aq = st.aq ++
      (List.range st.players.length).filter fun i =>
        decide (i ≠ idx) &&
        (match st.players[i]? with
         | some q => !q.folded && decide (q.stack > 0)
             && decide (q.bet < p.bet + min (st.hbet - p.bet + amt) p.stack)
         | none => false) &&
        decide (i ∉ st.aq) := by
  have hlt : idx < st.players.length := by
    rcases List.getElem?_eq_some_iff.mp hp with ⟨h, _⟩
    exact h
  set pd := min (st.hbet - p.bet + amt) p.stack with hpd
  set p' : Player := { p with stack := p.stack - pd, bet := p.bet + pd } with hp'
  set ps := st.players.set idx p' with hps
  have happly : App.apply st idx .raise amt =
      { st with
          players := ps
          pot := st.pot + pd
          hbet := p'.bet
          aq := (List.range ps.length).foldl
            (fun acc i => if reopenOk ps p' p'.bet i && decide (i ∉ acc) then acc ++ [i] else acc)
            st.aq } := by
    rw [App.apply, hp]
    simp only [← hpd, ← hp', ← hps]
    rw [if_pos hraise]
  rw [happly]
  refine ⟨rfl, ?_⟩
  have hlen : ps.length = st.players.length := by
    rw [hps, List.length_set]
  rw [reopen_foldl _ _ _ (List.nodup_range _), hlen]
  dsimp only
  congr 1
  apply List.filter_congr
  intro i hi
  have hirange : i < st.players.length := List.mem_range.mp (hlen ▸ hi)
  by_cases hiidx : i = idx
  · subst hiidx
    have hqi : ps[i]? = some p' := by
      rw [hps]
      exact List.getElem?_set_eq_of_lt _ (by omega)
    simp [reopenOk, hqi]
  · have hqi : ps[i]? = st.players[i]? := by
      rw [hps]
      exact List.getElem?_set_ne (fun h => hiidx h.symm)
    rcases hq : st.players[i]? with _ | q
    · simp [reopenOk, hqi, hq, hiidx]
    · -- q ≠ p' because the names are distinct
      have hm1 : i < (st.players.map Player.name).length := by
        simpa using hirange
      have hm2 : idx < (st.players.map Player.name).length := by
        simpa using hlt
      have hqp : (q != p') = true := by
        obtain ⟨hi2, hiq⟩ := List.getElem?_eq_some_iff.mp hq
        obtain ⟨hidx2, hip⟩ := List.getElem?_eq_some_iff.mp hp
        have hne : q.name ≠ p.name := by
          intro he
          apply hiidx
          have hmap : (st.players.map Player.name)[i] = (st.players.map Player.name)[idx] := by
            simp only [List.getElem_map]
            rw [hiq, hip, he]
          exact (List.Nodup.getElem_inj_iff hnames).mp hmap
        have : q ≠ p' := by
          intro he
          apply hne
          rw [he, hp']
        simpa using this
      simp only [reopenOk, hqi, hq, hqp, hiidx]
      simp [hp', hiidx]

/-- C2: when a raise is applied and the raiser's resulting total bet
exceeds the current bet to match, `hbet` is updated to that bet and
exactly the other non-folded players with non-zero stack whose bet is
below the new bet to match and that are not already in the action queue
are appended to the queue — no other player is appended. -/
theorem raise_updates_hbet_and_reopens (st : GState) (idx : Nat) (amt : Nat) (p : Player)
    (hp : st.players[idx]? = some p)
    (hnames : (st.players.map Player.name).Nodup)
    (hraise : p.bet + min (st.hbet - p.bet + amt) p.stack > st.hbet) :
    (App.apply st idx .raise amt).hbet = p.bet + min (st.hbet - p.bet + amt) p.stack ∧
    (App.apply st idx .raise amt).aq = st.aq ++
      (List.range st.players.length).filter fun i =>
        decide (i ≠ idx) &&
        (match st.players[i]? with
         | some q => !q.folded && decide (q.stack > 0)
             && decide (q.bet < p.bet + min (st.hbet - p.bet + amt) p.stack)
         | none => false) &&
        decide (i ∉ st.aq) :=
  apply_raise_reopen st idx amt p hp hnames hraise

/-- Concrete state for the C2 witness: Bob (index 1) raises; Alice is
live and unqueued (appended), Carol has a zero stack (not appended), Dave
is already queued (not appended). -/
def stC2 : GState :=
  { players := [
      { name := "Alice", stack := 50, hand := [], folded := false, bet := 10 },
      { name := "Bob", stack := 100, hand := [], folded := false, bet := 10 },
      { name := "Carol", stack := 0, hand := [], folded := false, bet := 10 },
      { name := "Dave", stack := 40, hand := [], folded := false, bet := 10 }]
    comm := []
    pot := 40
    hbet := 10
    aq := [3]
    deck := [] }

/-- The raiser of the C2 witness. -/
def bobC2 : Player := { name := "Bob", stack := 100, hand := [], folded := false, bet := 10 }

/-- C2 witness: the concrete raise in `stC2`. -/
theorem raise_updates_hbet_and_reopens_witness :
    (stC2.players[1]? = some bobC2 ∧ (stC2.players.map Player.name).Nodup ∧
      bobC2.bet + min (stC2.hbet - bobC2.bet + 20) bobC2.stack > stC2.hbet) ∧
    ((App.apply stC2 1 .raise 20).hbet
        = bobC2.bet + min (stC2.hbet - bobC2.bet + 20) bobC2.stack ∧
      (App.apply stC2 1 .raise 20).aq = stC2.aq ++
        (List.range stC2.players.length).filter fun i =>
          decide (i ≠ 1) &&
          (match stC2.players[i]? with
           | some q => !q.folded && decide (q.stack > 0)
               && decide (q.bet < bobC2.bet + min (stC2.hbet - bobC2.bet + 20) bobC2.stack)
           | none => false) &&
          decide (i ∉ stC2.aq)) :=
  ⟨⟨by decide, by decide, by decide⟩,
    raise_updates_hbet_and_reopens stC2 1 20 bobC2 (by decide) (by decide) (by decide)⟩

/-- C10: a raise whose resulting total bet does not exceed the current
bet to match (an all-in for less than the bet to match) leaves `hbet`
unchanged and appends no player to the action queue. -/
theorem underraise_no_reopen (st : GState) (idx : Nat) (amt : Nat) (p : Player)
    (hp : st.players[idx]? = some p)
    (hle : ¬ p.bet + min (st.hbet - p.bet + amt) p.stack > st.hbet) :
    (App.apply st idx .raise amt).hbet = st.hbet ∧
    (App.apply st idx .raise amt).aq = st.aq := by
  rw [App.apply, hp]
  simp only
  rw [if_neg hle]
  exact ⟨rfl, rfl⟩

/-- C10 witness: Eve, with a 5-chip stack and facing 10 to call, raises
all-in for less than the bet to match. -/
theorem underraise_no_reopen_witness :
    ((⟨[⟨"Eve", 5, [], false, 0⟩], [], 10, 10, [], []⟩ : GState).players[0]?
        = some ⟨"Eve", 5, [], false, 0⟩ ∧
      ¬ (⟨"Eve", 5, [], false, 0⟩ : Player).bet +
          min ((⟨[⟨"Eve", 5, [], false, 0⟩], [], 10, 10, [], []⟩ : GState).hbet - 0 + 100) 5
          > (⟨[⟨"Eve", 5, [], false, 0⟩], [], 10, 10, [], []⟩ : GState).hbet) ∧
    ((App.apply ⟨[⟨"Eve", 5, [], false, 0⟩], [], 10, 10, [], []⟩ 0 .raise 100).hbet = 10 ∧
      (App.apply ⟨[⟨"Eve", 5, [], false, 0⟩], [], 10, 10, [], []⟩ 0 .raise 100).aq = []) :=
  ⟨⟨by decide, by decide⟩,
    underraise_no_reopen _ 0 100 ⟨"Eve", 5, [], false, 0⟩ (by decide) (by decide)⟩

/-- Concrete state for C9: players A, B, C, D with equal bets this
street, C and D not queued (the queue is empty), B about to raise. -/
def stC9 : GState :=
  { players := [
      { name := "Ann", stack := 100, hand := [], folded := false, bet := 10 },
      { name := "Ben", stack := 100, hand := [], folded := false, bet := 10 },
      { name := "Cal", stack := 100, hand := [], folded := false, bet := 10 },
      { name := "Dan", stack := 100, hand := [], folded := false, bet := 10 }]
    comm := []
    pot := 40
    hbet := 10
    aq := []
    deck := [] }

/-- C9 counterexample: in the claim's scenario (four players with equal
bets, C and D not already queued, B raises) the code appends C and D to
the action queue — but it appends A as well, refuting the part of the
claim that says A, the raiser's immediate predecessor, does not reappear. -/
theorem raise_scenario_counterexample :
    (App.apply stC9 1 .raise 20).aq = [0, 2, 3] ∧
      0 ∈ (App.apply stC9 1 .raise 20).aq := by decide

/-- C9 amended: given four players A, B, C, D with equal bets this
street, when B raises (to strictly above the shared bet), C and D — not
already queued — reappear in the action queue, and A, the raiser's
immediate predecessor, reappears as well, because its bet is equally
below the new bet to match. -/
theorem raise_scenario_requeues_all (A B C D : Player) (comm deck : List Card)
    (pot b amt : Nat)
    (hnames : ([A, B, C, D].map Player.name).Nodup)
    (hA : A.folded = false) (hC : C.folded = false) (hD : D.folded = false)
    (hAs : 0 < A.stack) (hCs : 0 < C.stack) (hDs : 0 < D.stack)
    (hAb : A.bet = b) (hBb : B.bet = b) (hCb : C.bet = b) (hDb : D.bet = b)
    (hraise : B.bet + min (b - B.bet + amt) B.stack > b) :
    (App.apply ⟨[A, B, C, D], comm, pot, b, [], deck⟩ 1 .raise amt).aq = [0, 2, 3] := by
  obtain ⟨-, haq⟩ := apply_raise_reopen ⟨[A, B, C, D], comm, pot, b, [], deck⟩ 1 amt B
    rfl hnames hraise
  rw [haq]
  have hrange : List.range ([A, B, C, D] : List Player).length = [0, 1, 2, 3] := rfl
  rw [hrange]
  rcases A with ⟨na, sa, la, fa, ba⟩
  rcases B with ⟨nb, sb, lb, fb, bb⟩
  rcases C with ⟨nc, sc, lc, fc, bc⟩
  rcases D with ⟨nd, sd, ld, fd, bd⟩
  simp only at hA hC hD hAs hCs hDs hAb hBb hCb hDb hraise
  subst hA; subst hC; subst hD; subst hAb; subst hBb; subst hCb; subst hDb
  simp [List.filter_cons, List.filter_nil, hAs, hCs, hDs, hraise]
  have h : 0 < amt ∧ 0 < sb := by omega
  simp [h]

/-- C9 amended witness: the concrete scenario of `stC9`, where the raise
requeues indices 0, 2 and 3. -/
theorem raise_scenario_requeues_all_witness :
    ((([(⟨"Ann", 100, [], false, 10⟩ : Player), ⟨"Ben", 100, [], false, 10⟩,
        ⟨"Cal", 100, [], false, 10⟩, ⟨"Dan", 100, [], false, 10⟩]).map Player.name).Nodup ∧
      (⟨"Ann", 100, [], false, 10⟩ : Player).folded = false ∧
      (⟨"Cal", 100, [], false, 10⟩ : Player).folded = false ∧
      (⟨"Dan", 100, [], false, 10⟩ : Player).folded = false ∧
      0 < (⟨"Ann", 100, [], false, 10⟩ : Player).stack ∧
      0 < (⟨"Cal", 100, [], false, 10⟩ : Player).stack ∧
      0 < (⟨"Dan", 100, [], false, 10⟩ : Player).stack ∧
      (⟨"Ann", 100, [], false, 10⟩ : Player).bet = 10 ∧
      (⟨"Ben", 100, [], false, 10⟩ : Player).bet = 10 ∧
      (⟨"Cal", 100, [], false, 10⟩ : Player).bet = 10 ∧
      (⟨"Dan", 100, [], false, 10⟩ : Player).bet = 10 ∧
      (⟨"Ben", 100, [], false, 10⟩ : Player).bet +
        min (10 - (⟨"Ben", 100, [], false, 10⟩ : Player).bet + 20)
          (⟨"Ben", 100, [], false, 10⟩ : Player).stack > 10) ∧
    (App.apply ⟨[⟨"Ann", 100, [], false, 10⟩, ⟨"Ben", 100, [], false, 10⟩,
        ⟨"Cal", 100, [], false, 10⟩, ⟨"Dan", 100, [], false, 10⟩], [], 40, 10, [], []⟩
      1 .raise 20).aq = [0, 2, 3] :=
  ⟨⟨by decide, by decide, by decide, by decide, by decide, by decide, by decide,
      by decide, by decide, by decide, by decide, by decide⟩,
    raise_scenario_requeues_all _ _ _ _ [] [] 40 10 20 (by decide) (by decide) (by decide)
      (by decide) (by decide) (by decide) (by decide) (by decide) (by decide) (by decide)
      (by decide) (by decide)⟩

-- ── Hand end and hand start ──

/-- Python `>=` on optional `hand_rank` keys, used by the showdown sort.
At a showdown every ranked hand has ≥ 7 cards so the key is never `none`;
`none` is ordered below everything to make the relation total. -/
def optGe (x y : Option Score) : Bool :=
  match x, y with
  | some a, some b => scoreLe b a
  | some _, none => true
  | none, some _ => false
  | none, none => true

/-- The ordering used by `sorted(..., reverse=True, key=lambda x: x[0])`
in `App.end_hand`: descending by the `hand_rank` key (the sort never
compares the `Player` components). -/
def rankGe (x y : Option Score × Player) : Prop := optGe x.1 y.1 = true

instance : DecidableRel rankGe := fun x y => by
  unfold rankGe
  infer_instance

theorem optGe_total (x y : Option Score) : optGe x y = true ∨ optGe y x = true := by
  rcases x with _ | a <;> rcases y with _ | b <;> simp [optGe]
  exact scoreLe_total b a

theorem optGe_trans {x y z : Option Score} (hxy : optGe x y = true)
    (hyz : optGe y z = true) : optGe x z = true := by
  rcases x with _ | a <;> rcases y with _ | b <;> rcases z with _ | c <;>
    simp [optGe] at hxy hyz ⊢
  exact scoreLe_trans hyz hxy

theorem optGe_antisymm {x y : Option Score} (hxy : optGe x y = true)
    (hyx : optGe y x = true) : x = y := by
  rcases x with _ | a <;> rcases y with _ | b <;> simp [optGe] at hxy hyx ⊢
  simp only [scoreLe, Bool.not_eq_true'] at hxy hyx
  exact (scoreLt_connex hyx hxy).symm

instance : IsTotal (Option Score × Player) rankGe :=
  ⟨fun x y => optGe_total x.1 y.1⟩

instance : IsTrans (Option Score × Player) rankGe :=
  ⟨fun _ _ _ hxy hyz => optGe_trans hxy hyz⟩

namespace App

/-- `App.end_hand` restricted to its state mutations on players (history,
stats, dealer rotation and UI are omitted; the dealer field is not
modelled).  With exactly one un-folded player, that player wins the whole
pot; otherwise the remaining hands are ranked descending by their
`hand_rank` key and every player whose key ties the best one receives
`self.pot // len(winners)` chips.  `self.pot` itself is left unchanged:
the source resets it only in the next `start_hand`.  The empty `ranked`
case never occurs (the hand ends with at least one live player); Python
would raise there, the embedding returns the state unchanged. -/
def end_hand (st : GState) : GState :=
  let active := st.players.filter fun p => !p.folded
  if active.length = 1 then
    { st with players := st.players.map fun p =>
        if p.folded then p else { p with stack := p.stack + st.pot } }
  else
    let ranked := (active.map fun p => (hand_rank (p.hand ++ st.comm), p)).insertionSort rankGe
    match ranked with
    | [] => st
    | (best, _) :: _ =>
      let winners := (ranked.filter fun rp => rp.1 = best).map fun rp => rp.2
      let split := st.pot / winners.length
      { st with players := st.players.map fun p =>
          if p ∈ winners then { p with stack := p.stack + split } else p }

end App

namespace App

end App

theorem sum_map_stack_update (ps : List Player) (w : Player → Bool) (k : Nat) :
    ((ps.map fun p => if w p then { p with stack := p.stack + k } else p).map Player.stack).sum
      = (ps.map Player.stack).sum + k * ps.countP w := by
  induction ps with
  | nil => simp
  | cons q t ih =>
    simp only [List.map_cons, List.sum_cons, List.countP_cons]
    rcases h : w q with _ | _
    · simp only [h, Bool.false_eq_true, if_false, ih, Nat.add_zero]
      omega
    · simp only [h, if_true, ih]
      simp only [Nat.mul_add, Nat.mul_one]
      omega

/-- Characterization of the showdown branch of `end_hand`: with `best`
the maximal `hand_rank` key among the un-folded players and `n ≥ 2` of
them tied for it, each tied winner's stack grows by exactly `pot / n`,
every other player is unchanged, and the stack sum grows by exactly
`n * (pot / n) ≤ pot`. -/
theorem end_hand_showdown_payout (st : GState) (best : Option Score) (n : Nat)
    (hmem : ∃ p, p ∈ st.players ∧ p.folded = false ∧ hand_rank (p.hand ++ st.comm) = best)
    (hmax : ∀ p ∈ st.players, p.folded = false → optGe best (hand_rank (p.hand ++ st.comm)) = true)
    (hn : n = st.players.countP fun p => !p.folded && decide (hand_rank (p.hand ++ st.comm) = best))
    (hn2 : 2 ≤ n) :
    (∀ (i : Nat) (p : Player), st.players[i]? = some p →
      (App.end_hand st).players[i]? =
        some (if !p.folded && decide (hand_rank (p.hand ++ st.comm) = best)
              then { p with stack := p.stack + st.pot / n } else p)) ∧
    ((App.end_hand st).players.map Player.stack).sum
      = (st.players.map Player.stack).sum + n * (st.pot / n) ∧
    n * (st.pot / n) ≤ st.pot := by
  classical
  set cond : Player → Bool :=
    fun p => !p.folded && decide (hand_rank (p.hand ++ st.comm) = best) with hcond
  set active := st.players.filter fun p => !p.folded with hactive
  set pairs := active.map fun p => (hand_rank (p.hand ++ st.comm), p) with hpairs
  set ranked := pairs.insertionSort rankGe with hranked
  -- two or more active players
  have hcount : n ≤ active.length := by
    rw [hn, hactive, ← List.countP_eq_length_filter]
    apply List.countP_mono_left
    intro x _ hx
    exact (Bool.and_eq_true_iff.mp hx).1
  have hactive2 : 2 ≤ active.length := le_trans hn2 hcount
  have hne1 : ¬ active.length = 1 := by omega
  -- the sorted list is nonempty
  have hrankedlen : ranked.length = active.length := by
    rw [hranked, List.length_insertionSort, hpairs, List.length_map]
  have hsorted : List.Sorted rankGe ranked := List.sorted_insertionSort rankGe pairs
  have hperm : ranked.Perm pairs := List.perm_insertionSort rankGe pairs
  rcases hhd : ranked with _ | ⟨⟨b0, q0⟩, rest⟩
  · rw [hhd] at hrankedlen
    simp at hrankedlen
    omega
  -- the head key is the assumed maximal rank
  have hb0 : b0 = best := by
    have hhead_mem : (b0, q0) ∈ pairs := hperm.mem_iff.mp (by rw [hhd]; exact List.mem_cons_self _ _)
    rw [hpairs] at hhead_mem
    rcases List.mem_map.mp hhead_mem with ⟨q, hq_mem, hq_eq⟩
    have hq_act := hq_mem
    rw [hactive, List.mem_filter] at hq_act
    have hb0_le : optGe best b0 = true := by
      have := hmax q hq_act.1 (by simpa using hq_act.2)
      rw [(Prod.mk.injEq _ _ _ _ |>.mp hq_eq).1] at this
      exact this
    rcases hmem with ⟨w, hw_mem, hw_nf, hw_rank⟩
    have hw_pairs : (best, w) ∈ pairs := by
      rw [hpairs]
      refine List.mem_map.mpr ⟨w, ?_, by rw [hw_rank]⟩
      rw [hactive, List.mem_filter]
      exact ⟨hw_mem, by simp [hw_nf]⟩
    have hw_ranked : (best, w) ∈ ranked := hperm.mem_iff.mpr hw_pairs
    rw [hhd] at hw_ranked
    rcases List.mem_cons.mp hw_ranked with h | h
    · exact ((Prod.mk.injEq _ _ _ _).mp h.symm).1
    · have := List.rel_of_sorted_cons (hhd ▸ hsorted) _ h
      exact optGe_antisymm (by simpa [rankGe] using this) hb0_le
  subst hb0
  -- winners and their count
  set winners := ((ranked.filter fun rp => rp.1 = b0).map fun rp => rp.2) with hwinners
  have hwin_mem : ∀ x, x ∈ winners ↔ x ∈ active ∧ hand_rank (x.hand ++ st.comm) = b0 := by
    intro x
    rw [hwinners]
    constructor
    · intro hx
      rcases List.mem_map.mp hx with ⟨rp, hrp, hrpx⟩
      rcases List.mem_filter.mp hrp with ⟨hrp_mem, hrp_eq⟩
      have : rp ∈ pairs := hperm.mem_iff.mp (hhd ▸ hrp_mem)
      rw [hpairs] at this
      rcases List.mem_map.mp this with ⟨q, hq_mem, hq_eq⟩
      have h1 : q = x := by rw [← hrpx, ← hq_eq]
      subst h1
      refine ⟨hq_mem, ?_⟩
      have h2 : rp.1 = hand_rank (q.hand ++ st.comm) := by rw [← hq_eq]
      rw [← h2]
      exact of_decide_eq_true hrp_eq
    · rintro ⟨hx_act, hx_rank⟩
      have hx_pairs : (b0, x) ∈ pairs := by
        rw [hpairs]
        exact List.mem_map.mpr ⟨x, hx_act, by rw [hx_rank]⟩
      have hx_ranked : (b0, x) ∈ ranked := hperm.mem_iff.mpr hx_pairs
      refine List.mem_map.mpr ⟨(b0, x), ?_, rfl⟩
      rw [hhd] at hx_ranked ⊢
      exact List.mem_filter.mpr ⟨hx_ranked, by simp⟩
  have hwin_len : winners.length = n := by
    rw [hwinners, List.length_map, ← List.countP_eq_length_filter]
    have h1 : ranked.countP (fun rp => decide (rp.1 = b0))
        = pairs.countP fun rp => decide (rp.1 = b0) := hperm.countP_eq _
    rw [h1, hpairs, List.countP_map]
    rw [hactive, List.countP_filter, hn]
    apply List.countP_congr
    intro p _
    simp [hcond, Function.comp, Bool.and_comm]
  -- the state computed by end_hand
  have hend : App.end_hand st = { st with players := st.players.map fun p =>
      if p ∈ winners then { p with stack := p.stack + st.pot / winners.length } else p } := by
    rw [App.end_hand]
    simp only [← hactive, hne1, if_false]
    rw [← hpairs, ← hranked, hhd]
    simp only [← hhd, ← hwinners]
  -- pointwise form of the update
  have hmapeq : (st.players.map fun p =>
      if p ∈ winners then { p with stack := p.stack + st.pot / winners.length } else p)
      = st.players.map fun p => if cond p then { p with stack := p.stack + st.pot / n } else p := by
    apply List.map_congr_left
    intro p hp_mem
    rw [hwin_len]
    by_cases h : p ∈ winners
    · rw [if_pos h]
      have := (hwin_mem p).mp h
      have hc : cond p = true := by
        rw [hcond]
        rcases this with ⟨hact, hrank⟩
        rw [hactive, List.mem_filter] at hact
        simp [hact.2, hrank]
      rw [hc]
      simp
    · rw [if_neg h]
      have hc : cond p = false := by
        rcases hc : cond p with _ | _
        · rfl
        · exfalso
          apply h
          rw [hcond] at hc
          rcases Bool.and_eq_true_iff.mp hc with ⟨h1, h2⟩
          refine (hwin_mem p).mpr ⟨?_, of_decide_eq_true h2⟩
          rw [hactive, List.mem_filter]
          exact ⟨hp_mem, h1⟩
      rw [hc]
      simp
  rw [hend, hmapeq]
  refine ⟨?_, ?_, ?_⟩
  · intro i p hp
    simp only [List.getElem?_map, hp, Option.map_some']
  · have hsum := sum_map_stack_update st.players cond (st.pot / n)
    rw [hsum, hn]
    ring
  · calc n * (st.pot / n) = st.pot / n * n := Nat.mul_comm _ _
      _ ≤ st.pot := Nat.div_mul_le_self _ _

/-- C5: at a showdown (two or more players un-folded) where `n ≥ 2`
players are tied for the maximal `hand_rank`, `end_hand` adds exactly
`pot / n` (integer division) to each tied winner's stack, leaves every
other player unchanged, the total paid out is `n * (pot / n) ≤ pot`, and
the remainder `pot - n * (pot / n)` (between 0 and n−1 chips) is added to
no player's stack. -/
theorem showdown_split_pot (st : GState) (best : Option Score) (n : Nat)
    (hmem : ∃ p, p ∈ st.players ∧ p.folded = false ∧ hand_rank (p.hand ++ st.comm) = best)
    (hmax : ∀ p ∈ st.players, p.folded = false → optGe best (hand_rank (p.hand ++ st.comm)) = true)
    (hn : n = st.players.countP fun p => !p.folded && decide (hand_rank (p.hand ++ st.comm) = best))
    (hn2 : 2 ≤ n) :
    (∀ (i : Nat) (p : Player), st.players[i]? = some p →
      (App.end_hand st).players[i]? =
        some (if !p.folded && decide (hand_rank (p.hand ++ st.comm) = best)
              then { p with stack := p.stack + st.pot / n } else p)) ∧
    ((App.end_hand st).players.map Player.stack).sum
      = (st.players.map Player.stack).sum + n * (st.pot / n) ∧
    n * (st.pot / n) ≤ st.pot :=
  end_hand_showdown_payout st best n hmem hmax hn hn2

/-- Concrete state for the C5 witness: Pia and Quin both hold the
Broadway straight (A K Q J on the board plus a ten), the pot is 101. -/
def stC5 : GState :=
  { players := [
      { name := "Pia", stack := 100, hand := [(10, 1), (3, 2)], folded := false, bet := 0 },
      { name := "Quin", stack := 80, hand := [(10, 2), (4, 3)], folded := false, bet := 0 }]
    comm := [(14, 0), (13, 1), (12, 2), (11, 3), (2, 0)]
    pot := 101
    hbet := 0
    aq := []
    deck := [] }

/-- C5 witness: the concrete two-way tie of `stC5` (each winner gets
101 / 2 = 50, one chip is lost). -/
theorem showdown_split_pot_witness :
    ((∃ p, p ∈ stC5.players ∧ p.folded = false ∧
        hand_rank (p.hand ++ stC5.comm) = some (4, [14, 13, 12, 11, 10])) ∧
      (∀ p ∈ stC5.players, p.folded = false →
        optGe (some (4, [14, 13, 12, 11, 10])) (hand_rank (p.hand ++ stC5.comm)) = true) ∧
      2 = stC5.players.countP (fun p =>
        !p.folded && decide (hand_rank (p.hand ++ stC5.comm) = some (4, [14, 13, 12, 11, 10]))) ∧
      2 ≤ 2) ∧
    ((∀ (i : Nat) (p : Player), stC5.players[i]? = some p →
      (App.end_hand stC5).players[i]? =
        some (if !p.folded && decide (hand_rank (p.hand ++ stC5.comm) = some (4, [14, 13, 12, 11, 10]))
              then { p with stack := p.stack + stC5.pot / 2 } else p)) ∧
    ((App.end_hand stC5).players.map Player.stack).sum
      = (stC5.players.map Player.stack).sum + 2 * (stC5.pot / 2) ∧
    2 * (stC5.pot / 2) ≤ stC5.pot) :=
  ⟨⟨by decide, by decide, by decide, by decide⟩,
    showdown_split_pot stC5 (some (4, [14, 13, 12, 11, 10])) 2
      (by decide) (by decide) (by decide) (by decide)⟩

-- ── Equity estimator ──

/-- The drawing pool of `estimate_strength`:
`[c for c in make_deck() if c not in hole and c not in comm]`. -/
def remainingDeck (hole comm : List Card) : List Card :=
  make_deck.filter fun c => decide (c ∉ hole) && decide (c ∉ comm)

/-- One simulation trial of `estimate_strength`, given this trial's
shuffled remainder `shuffled`: `board = comm + deck[:needed]`,
`opp = deck[needed:needed+2]`, and the hero wins (ties included) when
`hand_rank(hole+board) >= hand_rank(opp+board)`.  Both ranks are tuples
of ≥ 7 cards, never `None`, so `optGe` is exactly the Python `>=`. -/
def trialWin (hole comm shuffled : List Card) : Bool :=
  let needed := 5 - comm.length
  let board := comm ++ shuffled.take needed
  let opp := (shuffled.drop needed).take 2
  optGe (hand_rank (hole ++ board)) (hand_rank (opp ++ board))

/-- `estimate_strength(hole, comm, trials)`: the per-trial results of
`random.shuffle(deck)` are passed explicitly as `shuffles` (each is a
reordering of the same remaining deck, shuffled in place), so
`trials = shuffles.length`.  Returns `wins / trials` as an exact
rational. -/
def estimate_strength (hole comm : List Card) (shuffles : List (List Card)) : ℚ :=
  let wins := shuffles.countP fun s => trialWin hole comm s
  (wins : ℚ) / (shuffles.length : ℚ)

theorem hand_rank_some (hand : List Card) (h5 : 5 ≤ hand.length) :
    ∃ m, hand_rank hand = some m := by
  have hlen : (hand.sublistsLen 5).length = hand.length.choose 5 := by
    simpa using List.length_sublistsLen 5 hand
  have hpos : 0 < (hand.sublistsLen 5).length := by
    rw [hlen]; exact Nat.choose_pos h5
  have hne : (hand.sublistsLen 5).map score_five ≠ [] := by
    intro h
    rw [List.map_eq_nil_iff] at h
    rw [h] at hpos
    exact Nat.lt_irrefl 0 hpos
  obtain ⟨m, hm, -, -⟩ := foldl_betterOf_max _ hne
  refine ⟨m, ?_⟩
  rw [hand_rank, ← List.foldl_map]
  exact hm

theorem make_deck_nodup : make_deck.Nodup := by decide

theorem remainingDeck_length (hole comm : List Card) :
    52 ≤ (remainingDeck hole comm).length + hole.length + comm.length := by
  have h52 : make_deck.length = 52 := by decide
  have hsplit := List.length_eq_countP_add_countP
    (fun c => decide (c ∉ hole) && decide (c ∉ comm)) make_deck
  have hrd : (remainingDeck hole comm).length
      = make_deck.countP fun c => decide (c ∉ hole) && decide (c ∉ comm) := by
    rw [remainingDeck, ← List.countP_eq_length_filter]
  -- the rejected cards all lie in hole ++ comm, and make_deck has no duplicates
  have hsub : (make_deck.filter fun c =>
      !(decide (c ∉ hole) && decide (c ∉ comm))).length ≤ hole.length + comm.length := by
    have hss : (make_deck.filter fun c =>
        !(decide (c ∉ hole) && decide (c ∉ comm))) ⊆ hole ++ comm := by
      intro c hc
      rcases List.mem_filter.mp hc with ⟨-, hcond⟩
      rw [List.mem_append]
      rcases hin : decide (c ∉ hole) with _ | _
      · left
        have := of_decide_eq_false hin
        exact not_not.mp this
      · rcases hin2 : decide (c ∉ comm) with _ | _
        · right
          exact not_not.mp (of_decide_eq_false hin2)
        · rw [hin, hin2] at hcond
          simp at hcond
    have hnd : (make_deck.filter fun c =>
        !(decide (c ∉ hole) && decide (c ∉ comm))).Nodup :=
      List.Nodup.sublist (List.filter_sublist _) make_deck_nodup
    have := (List.subperm_of_subset hnd hss).length_le
    simpa using this
  have hcf : make_deck.countP (fun c => !(decide (c ∉ hole) && decide (c ∉ comm)))
      = (make_deck.filter fun c => !(decide (c ∉ hole) && decide (c ∉ comm))).length :=
    List.countP_eq_length_filter _ _
  have hneg : make_deck.countP (fun c => ¬((decide (c ∉ hole) && decide (c ∉ comm)) = true))
      = make_deck.countP fun c => !(decide (c ∉ hole) && decide (c ∉ comm)) := by
    apply List.countP_congr
    intro c _
    simp
  rw [hneg, hcf] at hsplit
  omega

/-- C6: for a 2-card hole, a 0–5 card community and at least one trial,
`estimate_strength` returns `wins / trials`, a value in `[0, 1]`; each
trial completes the board to exactly 5 cards and draws 2 opponent hole
cards, all drawn cards pairwise distinct and disjoint from the hero's
hole and the community; and a trial counts as a win exactly when the
hero's `hand_rank` is ≥ the opponent's (ties counting as wins). -/
theorem estimate_strength_spec (hole comm : List Card) (shuffles : List (List Card))
    (hho : hole.length = 2) (hco : comm.length ≤ 5)
    (htr : 1 ≤ shuffles.length)
    (hsh : ∀ s ∈ shuffles, s.Perm (remainingDeck hole comm)) :
    estimate_strength hole comm shuffles
      = ((shuffles.countP fun s => trialWin hole comm s : Nat) : ℚ) / (shuffles.length : ℚ) ∧
    0 ≤ estimate_strength hole comm shuffles ∧
    estimate_strength hole comm shuffles ≤ 1 ∧
    ∀ s ∈ shuffles,
      (comm ++ s.take (5 - comm.length)).length = 5 ∧
      ((s.drop (5 - comm.length)).take 2).length = 2 ∧
      (s.take (5 - comm.length) ++ (s.drop (5 - comm.length)).take 2).Nodup ∧
      (∀ c ∈ s.take (5 - comm.length) ++ (s.drop (5 - comm.length)).take 2,
        c ∉ hole ∧ c ∉ comm) ∧
      ∃ rh ro,
        hand_rank (hole ++ (comm ++ s.take (5 - comm.length))) = some rh ∧
        hand_rank ((s.drop (5 - comm.length)).take 2 ++ (comm ++ s.take (5 - comm.length)))
          = some ro ∧
        (trialWin hole comm s = true ↔ scoreLe ro rh = true) := by
  have h45 : 45 ≤ (remainingDeck hole comm).length := by
    have := remainingDeck_length hole comm
    omega
  have hrd_nodup : (remainingDeck hole comm).Nodup :=
    List.Nodup.sublist (List.filter_sublist _) make_deck_nodup
  refine ⟨rfl, ?_, ?_, ?_⟩
  · rw [estimate_strength]
    positivity
  · rw [estimate_strength]
    have hle : (shuffles.countP fun s => trialWin hole comm s) ≤ shuffles.length :=
      List.countP_le_length _
    have hpos : (0 : ℚ) < (shuffles.length : ℚ) := by
      have : (1 : ℚ) ≤ (shuffles.length : ℚ) := by exact_mod_cast htr
      linarith
    rw [div_le_one hpos]
    exact_mod_cast hle
  · intro s hs
    have hperm := hsh s hs
    have hslen : s.length = (remainingDeck hole comm).length := hperm.length_eq
    have hs45 : 45 ≤ s.length := by omega
    have hs_nodup : s.Nodup := hperm.nodup_iff.mpr hrd_nodup
    have hdrawn_sub :
        List.Sublist (s.take (5 - comm.length) ++ (s.drop (5 - comm.length)).take 2) s := by
      have h1 : List.Sublist ((s.drop (5 - comm.length)).take 2) (s.drop (5 - comm.length)) :=
        List.take_sublist _ _
      have h2 := List.Sublist.append_left h1 (s.take (5 - comm.length))
      rwa [List.take_append_drop] at h2
    refine ⟨?_, ?_, ?_, ?_, ?_⟩
    · rw [List.length_append, List.length_take]
      omega
    · rw [List.length_take, List.length_drop]
      omega
    · exact List.Sublist.nodup hdrawn_sub hs_nodup
    · intro c hc
      have hc_s : c ∈ s := hdrawn_sub.subset hc
      have hc_rd : c ∈ remainingDeck hole comm := hperm.mem_iff.mp hc_s
      rcases List.mem_filter.mp hc_rd with ⟨-, hcond⟩
      rcases Bool.and_eq_true_iff.mp hcond with ⟨h1, h2⟩
      exact ⟨of_decide_eq_true h1, of_decide_eq_true h2⟩
    · have hb_len : (comm ++ s.take (5 - comm.length)).length = 5 := by
        rw [List.length_append, List.length_take]
        omega
      obtain ⟨rh, hrh⟩ := hand_rank_some (hole ++ (comm ++ s.take (5 - comm.length))) (by
        rw [List.length_append, hb_len]
        omega)
      obtain ⟨ro, hro⟩ := hand_rank_some
        ((s.drop (5 - comm.length)).take 2 ++ (comm ++ s.take (5 - comm.length))) (by
          rw [List.length_append, hb_len, List.length_take, List.length_drop]
          omega)
      refine ⟨rh, ro, hrh, hro, ?_⟩
      rw [trialWin]
      simp only [hrh, hro]
      rw [optGe]

/-- C6 witness: pocket aces preflop against one identity-shuffle trial. -/
theorem estimate_strength_spec_witness :
    (([((14, 0) : Card), (14, 1)]).length = 2 ∧
      ([] : List Card).length ≤ 5 ∧
      1 ≤ ([remainingDeck [(14, 0), (14, 1)] []]).length ∧
      ∀ s ∈ [remainingDeck [(14, 0), (14, 1)] []],
        s.Perm (remainingDeck [(14, 0), (14, 1)] [])) ∧
    (estimate_strength [(14, 0), (14, 1)] [] [remainingDeck [(14, 0), (14, 1)] []]
      = ((([remainingDeck [(14, 0), (14, 1)] []].countP
            fun s => trialWin [(14, 0), (14, 1)] [] s : Nat)) : ℚ)
          / (([remainingDeck [(14, 0), (14, 1)] []]).length : ℚ) ∧
    0 ≤ estimate_strength [(14, 0), (14, 1)] [] [remainingDeck [(14, 0), (14, 1)] []] ∧
    estimate_strength [(14, 0), (14, 1)] [] [remainingDeck [(14, 0), (14, 1)] []] ≤ 1 ∧
    ∀ s ∈ [remainingDeck [(14, 0), (14, 1)] []],
      (([] : List Card) ++ s.take (5 - ([] : List Card).length)).length = 5 ∧
      ((s.drop (5 - ([] : List Card).length)).take 2).length = 2 ∧
      (s.take (5 - ([] : List Card).length) ++ (s.drop (5 - ([] : List Card).length)).take 2).Nodup ∧
      (∀ c ∈ s.take (5 - ([] : List Card).length) ++ (s.drop (5 - ([] : List Card).length)).take 2,
        c ∉ [((14, 0) : Card), (14, 1)] ∧ c ∉ ([] : List Card)) ∧
      ∃ rh ro,
        hand_rank ([(14, 0), (14, 1)] ++ (([] : List Card) ++ s.take (5 - ([] : List Card).length)))
          = some rh ∧
        hand_rank ((s.drop (5 - ([] : List Card).length)).take 2 ++
            (([] : List Card) ++ s.take (5 - ([] : List Card).length))) = some ro ∧
        (trialWin [(14, 0), (14, 1)] [] s = true ↔ scoreLe ro rh = true)) :=
  ⟨⟨by decide, by decide, by decide, fun s hs => by
      rw [List.mem_singleton] at hs
      rw [hs]⟩,
    estimate_strength_spec [(14, 0), (14, 1)] [] [remainingDeck [(14, 0), (14, 1)] []]
      (by decide) (by decide) (by decide) (fun s hs => by
        rw [List.mem_singleton] at hs
        rw [hs])⟩

-- ── Bot decision policy ──

/-- `persona_adj.get(player.get('persona',''), 0)`: aggressive +0.10,
tight −0.12, loose +0.04, anything else 0 (floats as exact rationals). -/
def persona_adj (persona : String) : ℚ :=
  if persona = "aggressive" then 1/10
  else if persona = "tight" then -12/100
  else if persona = "loose" then 4/100
  else 0

/-- One row of the `DIFFICULTY_ADJ` table. -/
structure DiffAdj where
  fold_bias : ℚ
  bluff : ℚ
  raise_cap : ℚ
  skill : ℚ

/-- `DIFFICULTY_ADJ.get(difficulty, DIFFICULTY_ADJ['medium'])`. -/
def DIFFICULTY_ADJ (difficulty : String) : DiffAdj :=
  if difficulty = "easy" then ⟨1/10, 4/100, 2/10, -8/100⟩
  else if difficulty = "medium" then ⟨5/100, 6/100, 3/10, 0⟩
  else if difficulty = "hard" then ⟨0, 1/10, 45/100, 8/100⟩
  else ⟨5/100, 6/100, 3/10, 0⟩

/-- The `safe_raise()` closure inside `bot_decision`:
`pot_bet = int(pot*uniform(0.5,0.75))`,
`capped = min(pot_bet, int(stack*raise_cap), stack)`,
`return max(min_raise, capped)`.  `int(x)` is `⌊x⌋` (the products are
non-negative wherever the game evaluates them). -/
def safe_raise (stack pot min_raise : Int) (raise_cap u : ℚ) : Int :=
  let pot_bet := ⌊(pot : ℚ) * u⌋
  let capped := min (min pot_bet ⌊(stack : ℚ) * raise_cap⌋) stack
  max min_raise capped

/-- The bluff flag of `bot_decision`: `random.random() < d['bluff']`,
with the roll passed in. -/
def bot_bluff (difficulty : String) (bluffRoll : ℚ) : Prop :=
  bluffRoll < (DIFFICULTY_ADJ difficulty).bluff

instance (difficulty : String) (bluffRoll : ℚ) :
    Decidable (bot_bluff difficulty bluffRoll) := by
  unfold bot_bluff
  infer_instance

/-- The effective strength used by `bot_decision`:
`s = max(0, min(1, estimate + persona_adj + skill))`, then
`eff = min(1, s + 0.20)` when bluffing else `s`.  `s0` is the value the
internal `estimate_strength(player['hand'], comm)` call returned. -/
def bot_eff (persona difficulty : String) (s0 bluffRoll : ℚ) : ℚ :=
  let s := max 0 (min 1 (s0 + persona_adj persona + (DIFFICULTY_ADJ difficulty).skill))
  if bot_bluff difficulty bluffRoll then min 1 (s + 2/10) else s

/-- `pot_odds = call_amt/(pot+call_amt) if (pot+call_amt) > 0 else 1`. -/
def bot_pot_odds (pot call_amt : Int) : ℚ :=
  if pot + call_amt > 0 then (call_amt : ℚ) / ((pot : ℚ) + (call_amt : ℚ)) else 1

/-- `bot_decision(player, comm, pot, call_amt, min_raise, difficulty)`.
The random draws are explicit arguments: `s0` is the value returned by
the internal `estimate_strength(player['hand'], comm)` call, `bluffRoll`
the `random.random()` compared with the bluff rate, `actRoll` the
`random.random()` of whichever raise-probability check runs (at most one
per invocation), and `u` the `uniform(0.5, 0.75)` draw of `safe_raise`.
Of the player dict only `stack` and `persona` influence the result. -/
def bot_decision (persona : String) (stack pot call_amt min_raise : Int)
    (difficulty : String) (s0 bluffRoll actRoll u : ℚ) : Act × Int :=
  let d := DIFFICULTY_ADJ difficulty
  let eff := bot_eff persona difficulty s0 bluffRoll
  if call_amt = 0 then
    if eff > 72/100 ∧ stack ≥ min_raise ∧ actRoll < 6/10 then
      (.raise, safe_raise stack pot min_raise d.raise_cap u)
    else (.check, 0)
  else
    if eff < bot_pot_odds pot call_amt + d.fold_bias ∧ ¬ bot_bluff difficulty bluffRoll then
      (.fold, 0)
    else if eff < 55/100 then
      if call_amt ≤ ⌊(stack : ℚ) * (1/10)⌋ then (.call, min call_amt stack)
      else (.fold, 0)
    else if eff < 75/100 then (.call, min call_amt stack)
    else
      if stack ≥ min_raise ∧ actRoll < 55/100 then
        (.raise, safe_raise stack pot min_raise d.raise_cap u)
      else (.call, min call_amt stack)

theorem le_safe_raise (stack pot min_raise : Int) (raise_cap u : ℚ) :
    min_raise ≤ safe_raise stack pot min_raise raise_cap u := by
  rw [safe_raise]
  omega

theorem safe_raise_le (stack pot min_raise : Int) (raise_cap u : ℚ)
    (h : min_raise ≤ stack) :
    safe_raise stack pot min_raise raise_cap u ≤ stack := by
  rw [safe_raise]
  omega

/-- C7: `bot_decision` only returns legal, stack-bounded actions — the
amount never exceeds the stack, `check` is returned only when the call
amount is 0, `call` carries `min(call_amt, stack)`, and `raise` is
returned only when `stack ≥ min_raise`, with an amount between
`min_raise` and `stack`. -/
theorem bot_decision_legal (persona : String) (stack pot call_amt min_raise : Int)
    (difficulty : String) (s0 bluffRoll actRoll u : ℚ) (hstack : 0 ≤ stack) :
    (bot_decision persona stack pot call_amt min_raise difficulty s0 bluffRoll actRoll u).2
      ≤ stack ∧
    ((bot_decision persona stack pot call_amt min_raise difficulty s0 bluffRoll actRoll u).1
        = Act.check → call_amt = 0) ∧
    ((bot_decision persona stack pot call_amt min_raise difficulty s0 bluffRoll actRoll u).1
        = Act.call →
      (bot_decision persona stack pot call_amt min_raise difficulty s0 bluffRoll actRoll u).2
        = min call_amt stack) ∧
    ((bot_decision persona stack pot call_amt min_raise difficulty s0 bluffRoll actRoll u).1
        = Act.raise →
      min_raise ≤ stack ∧
      min_raise ≤ (bot_decision persona stack pot call_amt min_raise difficulty s0 bluffRoll actRoll u).2 ∧
      (bot_decision persona stack pot call_amt min_raise difficulty s0 bluffRoll actRoll u).2 ≤ stack) := by
  rw [bot_decision]
  by_cases h1 : call_amt = 0
  · rw [if_pos h1]
    by_cases h2 : bot_eff persona difficulty s0 bluffRoll > 72/100 ∧
        stack ≥ min_raise ∧ actRoll < 6/10
    · rw [if_pos h2]
      exact ⟨safe_raise_le _ _ _ _ _ h2.2.1, fun h => Act.noConfusion h,
        fun h => Act.noConfusion h,
        fun _ => ⟨h2.2.1, le_safe_raise _ _ _ _ _, safe_raise_le _ _ _ _ _ h2.2.1⟩⟩
    · rw [if_neg h2]
      exact ⟨hstack, fun _ => h1, fun h => Act.noConfusion h, fun h => Act.noConfusion h⟩
  · rw [if_neg h1]
    by_cases h3 : bot_eff persona difficulty s0 bluffRoll
        < bot_pot_odds pot call_amt + (DIFFICULTY_ADJ difficulty).fold_bias ∧
        ¬ bot_bluff difficulty bluffRoll
    · rw [if_pos h3]
      exact ⟨hstack, fun h => Act.noConfusion h, fun h => Act.noConfusion h,
        fun h => Act.noConfusion h⟩
    · rw [if_neg h3]
      by_cases h4 : bot_eff persona difficulty s0 bluffRoll < 55/100
      · rw [if_pos h4]
        by_cases h5 : call_amt ≤ ⌊(stack : ℚ) * (1/10)⌋
        · rw [if_pos h5]
          exact ⟨by omega, fun h => Act.noConfusion h, fun _ => rfl,
            fun h => Act.noConfusion h⟩
        · rw [if_neg h5]
          exact ⟨hstack, fun h => Act.noConfusion h, fun h => Act.noConfusion h,
            fun h => Act.noConfusion h⟩
      · rw [if_neg h4]
        by_cases h6 : bot_eff persona difficulty s0 bluffRoll < 75/100
        · rw [if_pos h6]
          exact ⟨by omega, fun h => Act.noConfusion h, fun _ => rfl,
            fun h => Act.noConfusion h⟩
        · rw [if_neg h6]
          by_cases h7 : stack ≥ min_raise ∧ actRoll < 55/100
          · rw [if_pos h7]
            exact ⟨safe_raise_le _ _ _ _ _ h7.1, fun h => Act.noConfusion h,
              fun h => Act.noConfusion h,
              fun _ => ⟨h7.1, le_safe_raise _ _ _ _ _, safe_raise_le _ _ _ _ _ h7.1⟩⟩
          · rw [if_neg h7]
            exact ⟨by omega, fun h => Act.noConfusion h, fun _ => rfl,
              fun h => Act.noConfusion h⟩

/-- C7 witness: a medium bot with 100 chips facing a 30-chip call. -/
theorem bot_decision_legal_witness :
    (0 : Int) ≤ 100 ∧
    ((bot_decision "aggressive" 100 60 30 40 "medium" (1/2) (1/2) (1/2) (6/10)).2 ≤ 100 ∧
    ((bot_decision "aggressive" 100 60 30 40 "medium" (1/2) (1/2) (1/2) (6/10)).1
        = Act.check → (30 : Int) = 0) ∧
    ((bot_decision "aggressive" 100 60 30 40 "medium" (1/2) (1/2) (1/2) (6/10)).1
        = Act.call →
      (bot_decision "aggressive" 100 60 30 40 "medium" (1/2) (1/2) (1/2) (6/10)).2
        = min 30 100) ∧
    ((bot_decision "aggressive" 100 60 30 40 "medium" (1/2) (1/2) (1/2) (6/10)).1
        = Act.raise →
      (40 : Int) ≤ 100 ∧
      (40 : Int) ≤ (bot_decision "aggressive" 100 60 30 40 "medium" (1/2) (1/2) (1/2) (6/10)).2 ∧
      (bot_decision "aggressive" 100 60 30 40 "medium" (1/2) (1/2) (1/2) (6/10)).2 ≤ 100)) :=
  ⟨by norm_num,
    bot_decision_legal "aggressive" 100 60 30 40 "medium" (1/2) (1/2) (1/2) (6/10) (by norm_num)⟩

